import Mathlib

set_option maxRecDepth 1000000

/-!
Verification development for a small content-addressable object store
(`src/git.rs`).  Rust byte sequences (`Vec<u8>`, `String`) are modelled as
`List Nat` with values below 256; machine integers use `Nat`/`Int` with
explicit wrapping where the source casts.  Fallible Rust code returning
`Result<T, Box<dyn Error>>` is modelled by the `Res` type below, which also
has an explicit constructor for panics (`unwrap`, `todo!`, slice
out-of-bounds), since several claims are about the presence or absence of
such aborts.
-/

/-- Byte sequences (Rust `Vec<u8>` and the byte view of `String`). -/
abbrev Bytes := List Nat

/-- ASCII bytes of the literal `"blob"`. -/
def blobTok : Bytes := [98, 108, 111, 98]

/-- ASCII bytes of the literal `"tree"`. -/
def treeTok : Bytes := [116, 114, 101, 101]

/-- ASCII bytes of the literal `"target"` (ignored directory name). -/
def targetTok : Bytes := [116, 97, 114, 103, 101, 116]

/-- ASCII bytes of the literal `".git"` (ignored directory name). -/
def dotGitTok : Bytes := [46, 103, 105, 116]

/-- ASCII character for one digit value below 16, lowercase for 10..15
(the rendering used by Rust format specifiers `{:o}`, `{}`, `{:02x}`). -/
def digitChar (d : Nat) : Nat := if d < 10 then 48 + d else 87 + d

/-- Fuel-indexed digit expansion of a natural number, most significant
digit first (digit values, not ASCII). -/
def toBaseAux (b : Nat) : Nat → Nat → List Nat
  | 0, _ => []
  | fuel + 1, n => if n = 0 then [] else toBaseAux b fuel (n / b) ++ [n % b]

/-- Digit values of `n` in base `b`, most significant first; `0` renders
as `[0]`.  Fuel `n + 1` is ample since the digit count is below `n + 1`. -/
def natToBase (b n : Nat) : List Nat :=
  if n = 0 then [0] else toBaseAux b (n + 1) n

/-- ASCII decimal rendering of a natural number (Rust `u32`/`usize`
`Display`, and `u32::to_string`). -/
def decimalAscii (n : Nat) : Bytes := (natToBase 10 n).map digitChar

/-- ASCII octal rendering of a natural number (Rust `format!("{:o}", _)`). -/
def octalAscii (n : Nat) : Bytes := (natToBase 8 n).map digitChar

/-- ASCII rendering of an `i32` value (Rust `Display` for `i32`: optional
minus sign followed by decimal digits). -/
def intAscii (i : Int) : Bytes :=
  if i < 0 then 45 :: decimalAscii i.natAbs else decimalAscii i.toNat

/-- Value of one ASCII decimal digit byte. -/
def digVal (c : Nat) : Option Nat :=
  if 48 ≤ c ∧ c ≤ 57 then some (c - 48) else none

/-- Accumulating loop of decimal digit parsing; fails on any non-digit. -/
def parseDigitsAux (acc : Nat) : Bytes → Option Nat
  | [] => some acc
  | c :: r =>
    match digVal c with
    | some d => parseDigitsAux (acc * 10 + d) r
    | none => none

/-- Parse a nonempty string of decimal digit bytes into its value. -/
def parseDigits : Bytes → Option Nat
  | [] => none
  | l => parseDigitsAux 0 l

/-- Rust `str::parse::<u32>`: optional leading `+`, then decimal digits;
rejects the empty string and values that overflow 32 bits. -/
def parse_u32 (s : Bytes) : Option Nat :=
  let t : Bytes := match s with
    | 43 :: r => r
    | _ => s
  match parseDigits t with
  | some v => if v < 2 ^ 32 then some v else none
  | none => none

/-- Rust `str::parse::<i32>`: optional sign, then decimal digits; rejects
the empty string and values outside the `i32` range. -/
def parse_i32 (s : Bytes) : Option Int :=
  match s with
  | 45 :: r =>
    match parseDigits r with
    | some v => if v ≤ 2 ^ 31 then some (-(v : Int)) else none
    | none => none
  | 43 :: r =>
    match parseDigits r with
    | some v => if v < 2 ^ 31 then some (v : Int) else none
    | none => none
  | t =>
    match parseDigits t with
    | some v => if v < 2 ^ 31 then some (v : Int) else none
    | none => none

/-- UTF-8 continuation byte test (`0x80..=0xBF`). -/
def isContByte (b : Nat) : Bool := 128 ≤ b && b < 192

/-- Rust `String::from_utf8` validity check: standard UTF-8 with overlong
forms, surrogates and values above `U+10FFFF` rejected. -/
def validUtf8 : Bytes → Bool
  | [] => true
  | b :: rest =>
    if b < 128 then validUtf8 rest
    else if b < 194 then false
    else if b < 224 then
      match rest with
      | c1 :: r => isContByte c1 && validUtf8 r
      | [] => false
    else if b < 240 then
      match rest with
      | c1 :: c2 :: r =>
        (if b = 224 then 160 ≤ c1 && c1 < 192
         else if b = 237 then 128 ≤ c1 && c1 < 160
         else isContByte c1) && isContByte c2 && validUtf8 r
      | _ => false
    else if b < 245 then
      match rest with
      | c1 :: c2 :: c3 :: r =>
        (if b = 240 then 144 ≤ c1 && c1 < 192
         else if b = 244 then 128 ≤ c1 && c1 < 144
         else isContByte c1) && isContByte c2 && isContByte c3 && validUtf8 r
      | _ => false
    else false

/-- Hex rendering of one byte value, exactly two lowercase characters
(Rust `format!("{:02x}", b)` for a `u8`). -/
def hexByte (b : Nat) : Bytes := [digitChar (b / 16 % 16), digitChar (b % 16)]

/-- Hex rendering of a byte sequence, two lowercase characters per byte
(source helper `encode_hex`, and the per-byte formatting in `Entry::new`
and the `LowerHex` rendering of a SHA1 digest). -/
def encode_hex : Bytes → Bytes
  | [] => []
  | b :: rest => hexByte b ++ encode_hex rest

/-- Value of one hex digit byte as accepted by `u8::from_str_radix(_, 16)`:
decimal digits, lowercase and uppercase letters. -/
def hexDigVal (c : Nat) : Option Nat :=
  if 48 ≤ c ∧ c ≤ 57 then some (c - 48)
  else if 97 ≤ c ∧ c ≤ 102 then some (c - 87)
  else if 65 ≤ c ∧ c ≤ 70 then some (c - 55)
  else none

/-- Rust `u8::from_str_radix(s, 16)` on a two-character slice: an optional
leading `+` is tolerated, otherwise both characters must be hex digits. -/
def hexPairVal (a b : Nat) : Option Nat :=
  if a = 43 then hexDigVal b
  else
    match hexDigVal a, hexDigVal b with
    | some x, some y => some (16 * x + y)
    | _, _ => none

/-!
SHA1 (FIPS 180-1), the digest used by the `sha1` crate in `get_sha1`.
Words are `Nat` values reduced modulo `2 ^ 32` at every arithmetic step.
-/

/-- Left rotation of a 32-bit word by `n` places. -/
def rotl (n x : Nat) : Nat := ((x <<< n) ||| (x >>> (32 - n))) % 2 ^ 32

/-- Big-endian byte rendering of the low `k` bytes of `n`. -/
def beBytes : Nat → Nat → Bytes
  | 0, _ => []
  | k + 1, n => beBytes k (n / 256) ++ [n % 256]

/-- Group bytes into big-endian 32-bit words (input length a multiple of
four; any shorter tail would be dropped). -/
def bytesToWords : Bytes → List Nat
  | a :: b :: c :: d :: rest => (((a * 256 + b) * 256 + c) * 256 + d) :: bytesToWords rest
  | _ => []

/-- One step of the SHA1 message-schedule expansion: the accumulator holds
the words produced so far in reverse order (most recent first). -/
def sha1ExtendAux : Nat → List Nat → List Nat
  | 0, acc => acc
  | fuel + 1, acc =>
    sha1ExtendAux fuel
      (rotl 1 (acc.getD 2 0 ^^^ acc.getD 7 0 ^^^ acc.getD 13 0 ^^^ acc.getD 15 0) :: acc)

/-- The 80-entry SHA1 message schedule of one 16-word block. -/
def sha1Schedule (block : List Nat) : List Nat :=
  (sha1ExtendAux 64 block.reverse).reverse

/-- SHA1 round function selection. -/
def sha1F (t b c d : Nat) : Nat :=
  if t < 20 then (b &&& c) ||| ((b ^^^ (2 ^ 32 - 1)) &&& d)
  else if t < 40 then b ^^^ c ^^^ d
  else if t < 60 then (b &&& c) ||| (b &&& d) ||| (c &&& d)
  else b ^^^ c ^^^ d

/-- SHA1 round constant selection. -/
def sha1K (t : Nat) : Nat :=
  if t < 20 then 1518500249
  else if t < 40 then 1859775393
  else if t < 60 then 2400959708
  else 3395469782

/-- SHA1 working state: the five chaining words. -/
abbrev Sha1St := Nat × Nat × Nat × Nat × Nat

/-- One SHA1 compression round at index `t` with schedule word `w`. -/
def sha1Round (t w : Nat) : Sha1St → Sha1St
  | (a, b, c, d, e) =>
    ((rotl 5 a + sha1F t b c d + e + sha1K t + w) % 2 ^ 32, a, rotl 30 b % 2 ^ 32, c, d)

/-- Fold the 80 rounds over the message schedule. -/
def sha1Rounds : Nat → List Nat → Sha1St → Sha1St
  | _, [], st => st
  | t, w :: ws, st => sha1Rounds (t + 1) ws (sha1Round t w st)

/-- Compress one 16-word block into the chaining state. -/
def sha1Compress (h : Sha1St) (block : List Nat) : Sha1St :=
  match h, sha1Rounds 0 (sha1Schedule block) h with
  | (h0, h1, h2, h3, h4), (a, b, c, d, e) =>
    ((h0 + a) % 2 ^ 32, (h1 + b) % 2 ^ 32, (h2 + c) % 2 ^ 32,
     (h3 + d) % 2 ^ 32, (h4 + e) % 2 ^ 32)

/-- Process a word list, sixteen words (one block) at a time. -/
def sha1Blocks (h : Sha1St) : List Nat → Sha1St
  | w0 :: w1 :: w2 :: w3 :: w4 :: w5 :: w6 :: w7 :: w8 :: w9 :: w10 :: w11 :: w12 :: w13 :: w14 :: w15 :: rest =>
    sha1Blocks (sha1Compress h [w0, w1, w2, w3, w4, w5, w6, w7, w8, w9, w10, w11, w12, w13, w14, w15]) rest
  | _ => h

/-- SHA1 initial chaining values. -/
def sha1Init : Sha1St := (1732584193, 4023233417, 2562383102, 271733878, 3285377520)

/-- SHA1 padding: a `0x80` byte, zero bytes up to 56 modulo 64, then the
bit length as eight big-endian bytes. -/
def sha1Pad (msg : Bytes) : Bytes :=
  msg ++ 128 :: List.replicate ((120 - (msg.length + 1) % 64) % 64) 0
      ++ beBytes 8 (8 * msg.length)

/-- The 20-byte SHA1 digest of a byte sequence. -/
def sha1digest (msg : Bytes) : Bytes :=
  match sha1Blocks sha1Init (bytesToWords (sha1Pad msg)) with
  | (a, b, c, d, e) => beBytes 4 a ++ beBytes 4 b ++ beBytes 4 c ++ beBytes 4 d ++ beBytes 4 e

/-!
The program model.  `Res` reifies the outcome of a fallible Rust
computation: `ok`, an error value returned to the caller (`Err`), or a
panic (`unwrap` / `expect` / `todo!` / out-of-bounds slicing), which in the
source aborts instead of returning.
-/

/-- The error enum `GitError` of `src/git.rs` (variants `InvalidArgs` and
`CorruptFile`; the spec refers to the decode failure as `CorruptObject`). -/
inductive GitError where
  | InvalidArgs (msg : Bytes)
  | CorruptFile
deriving DecidableEq, Repr

/-- Dynamic error kinds observable through `Box<dyn Error>`: a `GitError`,
a UTF-8 conversion error, an integer parse error, or an I/O error. -/
inductive RErr where
  | git (e : GitError)
  | utf8
  | parseInt
  | io
deriving DecidableEq, Repr

/-- Outcome of a fallible computation: success, an error value returned to
the caller, or a panic that aborts the process. -/
inductive Res (α : Type) where
  | ok (a : α)
  | err (e : RErr)
  | panic
deriving DecidableEq, Repr

/-- A directory entry of the in-memory `Tree` object (`struct Entry`).
The `type_` and `sha1` fields are Rust `String`s, kept as bytes. -/
structure Entry where
  mode : Nat
  type_ : Bytes
  name : Bytes
  sha1 : Bytes
deriving DecidableEq, Repr

/-- The object enum: `Blob { len, content }` or `Tree { len, entries }`,
with `len : i32` modelled as `Int` and `content : String` as bytes. -/
inductive Object where
  | blob (len : Int) (content : Bytes)
  | tree (len : Int) (entries : List Entry)
deriving DecidableEq, Repr

/-- Source `take_until`: split at the first occurrence of `target`, which
is consumed and dropped; if absent the whole input is consumed.  Returns
the bytes before the target and the remaining iterator contents. -/
def take_until (target : Nat) : Bytes → Bytes × Bytes
  | [] => ([], [])
  | b :: rest =>
    if b = target then ([], rest)
    else
      let p := take_until target rest
      (b :: p.1, p.2)

/-- The derived type label computed in `Entry::new`: `"blob"` when the
first character of the decimal rendering of `mode` is the digit 1,
otherwise `"tree"`. -/
def entryTypeOf (mode : Nat) : Bytes :=
  if (decimalAscii mode).head? = some 49 then blobTok else treeTok

/-- Source `Entry::new`: consume `<mode-text> <name>\0<up to 20 raw bytes>`
from the byte iterator.  Returns the outcome together with the bytes left
in the iterator (the iterator state is advanced even when an error is
returned).  The mode text is parsed with `parse::<u32>` (decimal); the
raw address bytes are re-rendered as lowercase hex pairs. -/
def Entry.new (bytes : Bytes) : Res Entry × Bytes :=
  let p1 := take_until 32 bytes
  if validUtf8 p1.1 then
    match parse_u32 p1.1 with
    | some mode =>
      let p2 := take_until 0 p1.2
      if validUtf8 p2.1 then
        (.ok ⟨mode, entryTypeOf mode, p2.1, encode_hex (p2.2.take 20)⟩, p2.2.drop 20)
      else (.err .utf8, p2.2)
    | none => (.err .parseInt, p1.2)
  else (.err .utf8, p1.2)

/-- Source `decode_hex`: walk the string two characters at a time through
`u8::from_str_radix(_, 16)` and collect the bytes; a parse failure is an
error return, while an odd-length string panics when the final
one-character tail is sliced as `s[i..i + 2]`. -/
def decode_hex : Bytes → Res Bytes
  | [] => .ok []
  | [_] => .panic
  | a :: b :: rest =>
    match hexPairVal a b with
    | some v =>
      match decode_hex rest with
      | .ok vs => .ok (v :: vs)
      | .err e => .err e
      | .panic => .panic
    | none => .err .parseInt

/-- Source `Entry::to_bytes`: `<octal mode> <name>\0<decoded sha1 bytes>`;
the `decode_hex(...).unwrap()` turns a hex parse failure into a panic. -/
def Entry.to_bytes (e : Entry) : Res Bytes :=
  match decode_hex e.sha1 with
  | .ok raw => .ok (octalAscii e.mode ++ [32] ++ e.name ++ [0] ++ raw)
  | _ => .panic

/-- Interpretation of a `usize` value as `i32` via Rust `as` (wrap to the
low 32 bits, then reinterpret the sign bit). -/
def i32cast (n : Nat) : Int :=
  if n % 2 ^ 32 < 2 ^ 31 then ((n % 2 ^ 32 : Nat) : Int)
  else ((n % 2 ^ 32 : Nat) : Int) - 2 ^ 32

/-- Wrap an integer into the `i32` range (release-mode semantics of `i32`
addition). -/
def wrap32 (x : Int) : Int := (x + 2 ^ 31) % 2 ^ 32 - 2 ^ 31

/-- Wrapping `i32` addition. -/
def i32add (a b : Int) : Int := wrap32 (a + b)

/-- Source `Entry::len`: byte length of the encoding, cast to `i32`. -/
def Entry.lenR (e : Entry) : Res Int :=
  match e.to_bytes with
  | .ok bs => .ok (i32cast bs.length)
  | .err x => .err x
  | .panic => .panic

/-- Sequence `to_bytes` over a list of entries, as the `for` loop in the
tree branch of `get_sha1` does, stopping at the first abnormal outcome. -/
def mapToBytes : List Entry → Res (List Bytes)
  | [] => .ok []
  | e :: es =>
    match e.to_bytes with
    | .ok b =>
      match mapToBytes es with
      | .ok bs => .ok (b :: bs)
      | .err x => .err x
      | .panic => .panic
    | .err x => .err x
    | .panic => .panic

/-- Source `Object::get_sha1`: hash `"<type> <len>\0<body>"` with SHA1 and
render the digest as lowercase hex.  For a `Blob` the body is the content;
for a `Tree` it is the concatenation of the entry encodings, each produced
by `Entry::to_bytes` (whose `unwrap` can panic). -/
def Object.get_sha1 : Object → Res Bytes
  | .blob len content =>
    .ok (encode_hex (sha1digest (blobTok ++ [32] ++ intAscii len ++ [0] ++ content)))
  | .tree len entries =>
    match mapToBytes entries with
    | .ok bs =>
      .ok (encode_hex (sha1digest (List.flatten ([treeTok, [32], intAscii len, [0]] ++ bs))))
    | .err x => .err x
    | .panic => .panic

/-- Fuel-indexed model of the entry-collection loop
`while rest.len() > 0 { entries.push(Entry::new(&mut rest)?) }` in the tree
branch of `read_from_sha1`.  Each iteration consumes at least one byte, so
fuel equal to the input length is always sufficient; the fuel-exhausted
case is unreachable for the fuel chosen in `parseEntries`. -/
def parseEntriesAux : Nat → Bytes → Res (List Entry)
  | _, [] => .ok []
  | 0, _ :: _ => .panic
  | fuel + 1, b :: rest0 =>
    match Entry.new (b :: rest0) with
    | (.ok e, rest) =>
      match parseEntriesAux fuel rest with
      | .ok es => .ok (e :: es)
      | .err x => .err x
      | .panic => .panic
    | (.err x, _) => .err x
    | (.panic, _) => .panic

/-- The entry-collection loop of the tree branch of `read_from_sha1`. -/
def parseEntries (bytes : Bytes) : Res (List Entry) :=
  parseEntriesAux bytes.length bytes

/-- Decoding step of `Object::read_from_sha1` (lines 127-154), applied to
the already-decompressed plaintext: read the type token up to the first
space, the length token up to the first NUL (parsed with
`parse::<i32>().unwrap()`, panicking on invalid text), then dispatch on
the type token. -/
def readObj (plaintext : Bytes) : Res Object :=
  let p1 := take_until 32 plaintext
  if validUtf8 p1.1 then
    let p2 := take_until 0 p1.2
    if validUtf8 p2.1 then
      match parse_i32 p2.1 with
      | none => .panic
      | some len =>
        if p1.1 = blobTok then
          if validUtf8 p2.2 then .ok (.blob len p2.2) else .err .utf8
        else if p1.1 = treeTok then
          match parseEntries p2.2 with
          | .ok entries => .ok (.tree len entries)
          | .err x => .err x
          | .panic => .panic
        else .err (.git .CorruptFile)
    else .err .utf8
  else .err .utf8

/-- Byte-slice guard for `(&s[..2], &s[2..])` on a Rust `str`: the string
must hold at least two bytes and byte offset 2 must lie on a character
boundary, otherwise the indexing panics. -/
def slice2ok (s : Bytes) : Bool :=
  2 ≤ s.length && (s.length = 2 || !isContByte (s.getD 2 0))

/-- Source `Object::read_from_sha1`.  The loose-object store is a
parameter mapping the two path segments `(sha[..2], sha[2..])` under
`.git/objects` to the stored file bytes (`None` models a failing
`File::open`), and the zlib inflater is a parameter as well (an external
crate).  No validation of the address string is performed before
slicing it. -/
def Object.read_from_sha1 (store : Bytes → Bytes → Option Bytes)
    (inflate : Bytes → Res Bytes) (object_sha : Bytes) : Res Object :=
  if slice2ok object_sha then
    match store (object_sha.take 2) (object_sha.drop 2) with
    | none => .err .io
    | some bytes =>
      match inflate bytes with
      | .ok plaintext => readObj plaintext
      | .err x => .err x
      | .panic => .panic
  else .panic

mutual
/-- A filesystem node: a regular file with raw content, or a directory.
The member list `FsDir` is its own inductive so that the directory walk
below is structurally recursive. -/
inductive FsNode where
  | file (content : Bytes)
  | dir (entries : FsDir)
/-- Members of a directory, in enumeration order: name bytes, `st_mode`
from the entry metadata, and the child node. -/
inductive FsDir where
  | nil
  | cons (name : Bytes) (mode : Nat) (node : FsNode) (rest : FsDir)
end

/-- Source `Object::from_path`: `fs::read_to_string` requires an existing
regular file with UTF-8 content (anything else is an I/O error) and the
length field is the byte length cast to `i32`. -/
def Object.from_path : FsNode → Res Object
  | .file content =>
    if validUtf8 content then .ok (.blob (i32cast content.length) content)
    else .err .io
  | .dir _ => .err .io

/-- Source `Entry::from_dir_entry` given the result of building the child
object (the `metadata.is_dir()` dispatch between `read_from_dir` and
`from_path` happens at the call site in the directory loop): compute the
child address, derive the type label from the object variant, convert the
file name (`CorruptFile` on non-UTF-8), and take the mode from the
metadata. -/
def Entry.from_dir_entry (childObj : Res Object) (name : Bytes) (mode : Nat) :
    Res Entry :=
  match childObj with
  | .ok object =>
    match object.get_sha1 with
    | .ok sha1 =>
      let t := match object with
        | .blob _ _ => blobTok
        | .tree _ _ => treeTok
      if validUtf8 name then .ok ⟨mode, t, name, sha1⟩
      else .err (.git .CorruptFile)
    | .err x => .err x
    | .panic => .panic
  | .err x => .err x
  | .panic => .panic

mutual
/-- Source `Object::read_from_dir`: enumerate a directory and build a
`Tree` object from its non-ignored members (`fs::read_dir` fails with an
I/O error on a non-directory path). -/
def Object.read_from_dir : FsNode → Res Object
  | .file _ => .err .io
  | .dir entries =>
    match dirLoop 0 [] entries with
    | .ok (len, es) => .ok (.tree len es)
    | .err x => .err x
    | .panic => .panic

/-- The `for entry in dir` loop of `read_from_dir`: skip the ignored names
`target` and `.git` (each name is first converted with
`into_string().unwrap()`, panicking on non-UTF-8), build an entry for
everything else, accumulate `len += e.len()` with wrapping `i32` addition
and push the entry. -/
def dirLoop (len : Int) (acc : List Entry) : FsDir → Res (Int × List Entry)
  | .nil => .ok (len, acc)
  | .cons name mode node rest =>
    if validUtf8 name then
      if name = targetTok ∨ name = dotGitTok then dirLoop len acc rest
      else
        match Entry.from_dir_entry
            (match node with
             | .dir _ => Object.read_from_dir node
             | .file _ => Object.from_path node) name mode with
        | .ok e =>
          match e.lenR with
          | .ok el => dirLoop (i32add len el) (acc ++ [e]) rest
          | .err x => .err x
          | .panic => .panic
        | .err x => .err x
        | .panic => .panic
    else .panic
end

/-- Source `Object::write_to_database`: compute the address, split it as
`(&sha1[..2], &sha1[2..])`, build `"blob <len>\0<content>"` for a blob and
hit `todo!()` for a tree, compress the data and write it.  The returned
triple reifies the write effect: the two path segments under
`.git/objects`, and the compressed bytes written (the zlib deflater is a
parameter, an external crate). -/
def Object.write_to_database (deflate : Bytes → Bytes) (o : Object) :
    Res (Bytes × Bytes × Bytes) :=
  match o.get_sha1 with
  | .ok sha1 =>
    if slice2ok sha1 then
      match o with
      | .blob len content =>
        .ok (sha1.take 2, sha1.drop 2,
             deflate (blobTok ++ [32] ++ intAscii len ++ [0] ++ content))
      | .tree _ _ => .panic
    else .panic
  | .err x => .err x
  | .panic => .panic

/-!
Lemma layer: structural facts about the embedded definitions.
-/

/-- Lowercase hex digit characters (ASCII `0`-`9`, `a`-`f`). -/
def isLowerHexChar (c : Nat) : Prop := (48 ≤ c ∧ c ≤ 57) ∨ (97 ≤ c ∧ c ≤ 102)

instance (c : Nat) : Decidable (isLowerHexChar c) := by
  unfold isLowerHexChar
  infer_instance

theorem take_until_len_le (t : Nat) (l : Bytes) :
    (take_until t l).2.length ≤ l.length := by
  induction l with
  | nil => simp [take_until]
  | cons b rest ih =>
    simp only [take_until]
    by_cases hb : b = t
    · simp [hb]
    · simp only [if_neg hb, List.length_cons]
      omega

theorem take_until_len_lt (t : Nat) (l : Bytes) (h : l ≠ []) :
    (take_until t l).2.length < l.length := by
  cases l with
  | nil => exact absurd rfl h
  | cons b rest =>
    simp only [take_until]
    by_cases hb : b = t
    · simp [hb]
    · simp only [if_neg hb, List.length_cons]
      have := take_until_len_le t rest
      omega

theorem take_until_append (t : Nat) (l r : Bytes) (h : t ∉ l) :
    take_until t (l ++ t :: r) = (l, r) := by
  induction l with
  | nil => simp [take_until]
  | cons b rest ih =>
    have hb : b ≠ t := fun hbt => h (hbt ▸ List.mem_cons_self b rest)
    have hr : t ∉ rest := fun hm => h (List.mem_cons_of_mem b hm)
    simp [take_until, hb, ih hr]

theorem take_until_no_target (t : Nat) (l : Bytes) (h : t ∉ l) :
    take_until t l = (l, []) := by
  induction l with
  | nil => simp [take_until]
  | cons b rest ih =>
    have hb : b ≠ t := fun hbt => h (hbt ▸ List.mem_cons_self b rest)
    have hr : t ∉ rest := fun hm => h (List.mem_cons_of_mem b hm)
    simp [take_until, hb, ih hr]

theorem encode_hex_length (l : Bytes) : (encode_hex l).length = 2 * l.length := by
  induction l with
  | nil => rfl
  | cons b rest ih =>
    simp only [encode_hex, hexByte, List.length_append, List.length_cons, ih,
      List.length_nil]
    omega

theorem encode_hex_mem {c : Nat} {l : Bytes} (h : c ∈ encode_hex l) :
    isLowerHexChar c := by
  induction l with
  | nil => simp [encode_hex] at h
  | cons b rest ih =>
    simp only [encode_hex, hexByte, List.cons_append, List.mem_cons,
      List.nil_append] at h
    rcases h with h | h | h
    · have : b / 16 % 16 < 16 := Nat.mod_lt _ (by omega)
      subst h
      unfold digitChar isLowerHexChar
      split <;> omega
    · have : b % 16 < 16 := Nat.mod_lt _ (by omega)
      subst h
      unfold digitChar isLowerHexChar
      split <;> omega
    · exact ih h

theorem hexDigVal_digitChar {d : Nat} (h : d < 16) :
    hexDigVal (digitChar d) = some d := by
  unfold hexDigVal digitChar
  interval_cases d <;> simp

theorem decode_encode_hex (l : Bytes) (h : ∀ b ∈ l, b < 256) :
    decode_hex (encode_hex l) = .ok l := by
  induction l with
  | nil => rfl
  | cons b rest ih =>
    have hb : b < 256 := h b (List.mem_cons_self b rest)
    have hrest : ∀ x ∈ rest, x < 256 := fun x hx => h x (List.mem_cons_of_mem b hx)
    have hhi : b / 16 % 16 < 16 := Nat.mod_lt _ (by omega)
    have hlo : b % 16 < 16 := Nat.mod_lt _ (by omega)
    have hne : digitChar (b / 16 % 16) ≠ 43 := by
      unfold digitChar
      split <;> omega
    have hdiv : b / 16 % 16 = b / 16 := Nat.mod_eq_of_lt (by omega)
    have hstep : encode_hex (b :: rest) =
        digitChar (b / 16 % 16) :: digitChar (b % 16) :: encode_hex rest := by
      simp [encode_hex, hexByte]
    rw [hstep]
    simp only [decode_hex, hexPairVal, if_neg hne, hexDigVal_digitChar hhi,
      hexDigVal_digitChar hlo, ih hrest]
    have hval : 16 * (b / 16 % 16) + b % 16 = b := by
      rw [hdiv]
      omega
    rw [hval]

theorem beBytes_length (k n : Nat) : (beBytes k n).length = k := by
  induction k generalizing n with
  | zero => rfl
  | succ k ih => simp [beBytes, ih]

theorem beBytes_lt (k n : Nat) : ∀ x ∈ beBytes k n, x < 256 := by
  induction k generalizing n with
  | zero => simp [beBytes]
  | succ k ih =>
    intro x hx
    simp only [beBytes, List.mem_append, List.mem_singleton] at hx
    rcases hx with hx | hx
    · exact ih _ x hx
    · subst hx
      exact Nat.mod_lt _ (by omega)

theorem sha1digest_length (m : Bytes) : (sha1digest m).length = 20 := by
  unfold sha1digest
  rcases sha1Blocks sha1Init (bytesToWords (sha1Pad m)) with ⟨a, b, c, d, e⟩
  simp [beBytes_length]

theorem sha1digest_lt (m : Bytes) : ∀ x ∈ sha1digest m, x < 256 := by
  unfold sha1digest
  rcases sha1Blocks sha1Init (bytesToWords (sha1Pad m)) with ⟨a, b, c, d, e⟩
  intro x hx
  simp only [List.mem_append] at hx
  rcases hx with ((((hx | hx) | hx) | hx) | hx) <;> exact beBytes_lt _ _ x hx

theorem isContByte_of_lower_hex {c : Nat} (h : isLowerHexChar c) :
    isContByte c = false := by
  unfold isLowerHexChar at h
  unfold isContByte
  rcases h with ⟨h1, h2⟩ | ⟨h1, h2⟩ <;> simp <;> omega

theorem wrap32_eq_self {x : Int} (h1 : -(2 ^ 31) ≤ x) (h2 : x < 2 ^ 31) :
    wrap32 x = x := by
  unfold wrap32
  omega

theorem wrap32_idem (x : Int) : wrap32 (wrap32 x) = wrap32 x := by
  unfold wrap32
  omega

theorem wrap32_add_left (a b : Int) : wrap32 (wrap32 a + b) = wrap32 (a + b) := by
  unfold wrap32
  omega

theorem wrap32_add_right (a b : Int) : wrap32 (a + wrap32 b) = wrap32 (a + b) := by
  unfold wrap32
  omega

theorem i32cast_eq_wrap (n : Nat) : i32cast n = wrap32 (n : Int) := by
  unfold i32cast wrap32
  have hmod : ((n % 2 ^ 32 : Nat) : Int) = (n : Int) % 2 ^ 32 := by
    push_cast
    rfl
  rw [hmod]
  omega

theorem i32cast_small {n : Nat} (h : n < 2 ^ 31) : i32cast n = (n : Int) := by
  rw [i32cast_eq_wrap]
  apply wrap32_eq_self <;> omega

theorem Entry.to_bytes_ne_err (e : Entry) (x : RErr) : e.to_bytes ≠ .err x := by
  unfold Entry.to_bytes
  rcases decode_hex e.sha1 with _ | _ | _ <;> simp

theorem mapToBytes_ne_err (es : List Entry) (x : RErr) : mapToBytes es ≠ .err x := by
  induction es with
  | nil => simp [mapToBytes]
  | cons e rest ih =>
    simp only [mapToBytes]
    rcases hb : e.to_bytes with b | y | _
    · rcases hr : mapToBytes rest with bs | y | _ <;> simp_all
    · exact absurd hb (Entry.to_bytes_ne_err e y)
    · simp

theorem Object.get_sha1_shape (o : Object) (s : Bytes) (h : o.get_sha1 = .ok s) :
    ∃ l, s = encode_hex l ∧ l.length = 20 ∧ ∀ x ∈ l, x < 256 := by
  cases o with
  | blob len content =>
    simp only [Object.get_sha1, Res.ok.injEq] at h
    exact ⟨_, h.symm, sha1digest_length _, sha1digest_lt _⟩
  | tree len entries =>
    simp only [Object.get_sha1] at h
    rcases hm : mapToBytes entries with bs | x | _ <;> rw [hm] at h <;>
      simp only [Res.ok.injEq, reduceCtorEq] at h
    exact ⟨_, h.symm, sha1digest_length _, sha1digest_lt _⟩

theorem Object.get_sha1_hex_valid (o : Object) (s : Bytes) (h : o.get_sha1 = .ok s) :
    s.length = 40 ∧ ∀ c ∈ s, isLowerHexChar c := by
  obtain ⟨l, hs, hlen, _⟩ := o.get_sha1_shape s h
  subst hs
  exact ⟨by rw [encode_hex_length, hlen], fun c hc => encode_hex_mem hc⟩

theorem Entry.new_rest_length (bytes : Bytes) (h : bytes ≠ []) :
    (Entry.new bytes).2.length < bytes.length := by
  have h1 := take_until_len_lt 32 bytes h
  have h2 := take_until_len_le 0 (take_until 32 bytes).2
  have h3 := List.length_drop 20 (take_until 0 (take_until 32 bytes).2).2
  unfold Entry.new
  dsimp only
  repeat' split
  all_goals dsimp only
  all_goals omega

theorem parseEntriesAux_congr : ∀ (n : Nat) (l : Bytes), l.length ≤ n →
    ∀ f1 f2, l.length ≤ f1 → l.length ≤ f2 →
    parseEntriesAux f1 l = parseEntriesAux f2 l := by
  intro n
  induction n with
  | zero =>
    intro l hl f1 f2 _ _
    have : l = [] := List.length_eq_zero.mp (Nat.le_zero.mp hl)
    subst this
    cases f1 <;> cases f2 <;> rfl
  | succ n ih =>
    intro l hl f1 f2 h1 h2
    cases l with
    | nil => cases f1 <;> cases f2 <;> rfl
    | cons b rest =>
      cases f1 with
      | zero => simp at h1
      | succ g1 =>
        cases f2 with
        | zero => simp at h2
        | succ g2 =>
          simp only [parseEntriesAux]
          rcases he : Entry.new (b :: rest) with ⟨res, rem⟩
          have hlt : rem.length < rest.length + 1 := by
            have := Entry.new_rest_length (b :: rest) (by simp)
            rw [he] at this
            simpa using this
          rcases res with e | x | _ <;> dsimp only
          rw [ih rem (by simp at hl; omega) g1 g2 (by simp at h1; omega)
            (by simp at h2; omega)]

theorem parseEntriesAux_fuel (l : Bytes) (f : Nat) (h : l.length ≤ f) :
    parseEntriesAux f l = parseEntries l :=
  parseEntriesAux_congr l.length l le_rfl f l.length h le_rfl

theorem Entry.new_spec (modeText name addr : Bytes) (mode : Nat)
    (h4 : parse_u32 modeText = some mode) (h5 : validUtf8 modeText = true)
    (h6 : (32 : Nat) ∉ modeText) (h7 : validUtf8 name = true)
    (h8 : (0 : Nat) ∉ name) :
    Entry.new (modeText ++ 32 :: (name ++ 0 :: addr)) =
      (.ok ⟨mode, entryTypeOf mode, name, encode_hex (addr.take 20)⟩, addr.drop 20) := by
  unfold Entry.new
  rw [take_until_append 32 modeText (name ++ 0 :: addr) h6]
  dsimp only
  rw [take_until_append 0 name addr h8]
  simp [h5, h4, h7]

theorem decode_hex_ok : ∀ (l : Bytes), l.length % 2 = 0 →
    (∀ c ∈ l, (hexDigVal c).isSome) →
    ∃ raw, decode_hex l = .ok raw ∧ raw.length = l.length / 2
  | [], _, _ => ⟨[], rfl, rfl⟩
  | [a], he, _ => by simp at he
  | a :: b :: rest, he, hh => by
    obtain ⟨raw, hr, hlen⟩ := decode_hex_ok rest (by simp at he ⊢; omega)
      (fun c hc => hh c (by simp [hc]))
    have hista : (hexDigVal a).isSome := hh a (by simp)
    have histb : (hexDigVal b).isSome := hh b (by simp)
    obtain ⟨x, hx⟩ := Option.isSome_iff_exists.mp hista
    obtain ⟨y, hy⟩ := Option.isSome_iff_exists.mp histb
    have ha : a ≠ 43 := by
      intro hc
      rw [hc] at hx
      simp [hexDigVal] at hx
    refine ⟨(16 * x + y) :: raw, ?_, ?_⟩
    · simp only [decode_hex, hexPairVal, if_neg ha, hx, hy, hr]
    · simp only [List.length_cons, hlen]
      omega

/-- Whether `Entry::to_bytes` returns normally on this entry (its `sha1`
field decodes as hex text). -/
def Entry.toBytesOkB (e : Entry) : Bool :=
  match e.to_bytes with
  | .ok _ => true
  | _ => false

theorem mapToBytes_ok_of_all (es : List Entry)
    (h : ∀ e ∈ es, e.toBytesOkB = true) : ∃ bs, mapToBytes es = .ok bs := by
  induction es with
  | nil => exact ⟨[], rfl⟩
  | cons e rest ih =>
    have he := h e (List.mem_cons_self e rest)
    unfold Entry.toBytesOkB at he
    obtain ⟨bs, hbs⟩ := ih (fun x hx => h x (List.mem_cons_of_mem e hx))
    rcases hb : e.to_bytes with b | x | _ <;> rw [hb] at he <;> simp at he
    exact ⟨b :: bs, by simp only [mapToBytes, hb, hbs]⟩

theorem foldl_i32add (bs : List Bytes) : ∀ z : Int, wrap32 z = z →
    List.foldl (fun l bl => i32add l (i32cast bl.length)) z bs =
      wrap32 (z + ((bs.map List.length).sum : Int)) := by
  induction bs with
  | nil =>
    intro z hz
    simpa using hz.symm
  | cons b rest ih =>
    intro z hz
    simp only [List.foldl_cons, List.map_cons, List.sum_cons]
    rw [ih (i32add z (i32cast b.length)) (by unfold i32add; exact wrap32_idem _)]
    unfold i32add
    rw [i32cast_eq_wrap]
    push_cast
    unfold wrap32
    omega

theorem Entry.from_dir_entry_to_bytes (r : Res Object) (name : Bytes) (mode : Nat)
    (e : Entry) (h : Entry.from_dir_entry r name mode = .ok e) :
    ∃ b, e.to_bytes = .ok b ∧ e.lenR = .ok (i32cast b.length) := by
  unfold Entry.from_dir_entry at h
  rcases r with obj | x | _ <;> dsimp only at h
  case ok =>
    rcases hs : obj.get_sha1 with s | x | _ <;> rw [hs] at h <;> dsimp only at h
    case ok =>
      by_cases hn : validUtf8 name = true
      · rw [if_pos hn] at h
        obtain ⟨l, hsl, hl20, hlt⟩ := obj.get_sha1_shape s hs
        have he : e = ⟨mode, _, name, s⟩ := (Res.ok.injEq _ _).mp h.symm
        have hdec : decode_hex e.sha1 = .ok l := by
          rw [he]
          dsimp only
          rw [hsl]
          exact decode_encode_hex l hlt
        refine ⟨octalAscii e.mode ++ [32] ++ e.name ++ [0] ++ l, ?_, ?_⟩
        · unfold Entry.to_bytes
          rw [hdec]
        · unfold Entry.lenR Entry.to_bytes
          rw [hdec]
      · rw [if_neg hn] at h
        simp at h
    all_goals simp at h
  all_goals simp at h

theorem dirLoop_nil_eq (len : Int) (acc : List Entry) :
    dirLoop len acc .nil = .ok (len, acc) := rfl

theorem dirLoop_cons_eq (len : Int) (acc : List Entry) (name : Bytes)
    (mode : Nat) (node : FsNode) (rest : FsDir) :
    dirLoop len acc (.cons name mode node rest) =
      (if validUtf8 name = true then
        if name = targetTok ∨ name = dotGitTok then dirLoop len acc rest
        else
          match Entry.from_dir_entry (match node with
              | .dir _ => Object.read_from_dir node
              | .file _ => Object.from_path node) name mode with
          | .ok e =>
            match e.lenR with
            | .ok el => dirLoop (i32add len el) (acc ++ [e]) rest
            | .err x => .err x
            | .panic => .panic
          | .err x => .err x
          | .panic => .panic
      else .panic) := rfl

theorem read_from_dir_file_eq (content : Bytes) :
    Object.read_from_dir (.file content) = .err .io := rfl

theorem read_from_dir_dir_eq (entries : FsDir) :
    Object.read_from_dir (.dir entries) =
      (match dirLoop 0 [] entries with
      | .ok (len, es) => .ok (.tree len es)
      | .err x => .err x
      | .panic => .panic) := rfl

theorem dirLoop_ok : ∀ (d : FsDir) (len : Int) (acc : List Entry) (L : Int)
    (ES : List Entry), dirLoop len acc d = .ok (L, ES) →
    ∃ es2 bs, ES = acc ++ es2 ∧ mapToBytes es2 = .ok bs ∧
      L = List.foldl (fun l bl => i32add l (i32cast bl.length)) len bs
  | .nil, len, acc, L, ES => fun h => by
    rw [dirLoop_nil_eq] at h
    simp only [Res.ok.injEq, Prod.mk.injEq] at h
    exact ⟨[], [], by simp [h.2.symm], rfl, by simp [h.1.symm]⟩
  | .cons name mode node rest, len, acc, L, ES => fun h => by
    rw [dirLoop_cons_eq] at h
    by_cases hn : validUtf8 name = true
    · rw [if_pos hn] at h
      by_cases hig : name = targetTok ∨ name = dotGitTok
      · rw [if_pos hig] at h
        exact dirLoop_ok rest len acc L ES h
      · rw [if_neg hig] at h
        split at h
        next e heq =>
          split at h
          next el heq2 =>
            obtain ⟨b, hb, hlenR⟩ := Entry.from_dir_entry_to_bytes _ _ _ _ heq
            rw [hlenR] at heq2
            have hel : el = i32cast b.length := by
              injection heq2 with h2
              exact h2.symm
            subst hel
            obtain ⟨es2, bs, hES, hmap, hL⟩ := dirLoop_ok rest _ _ L ES h
            refine ⟨e :: es2, b :: bs, ?_, ?_, ?_⟩
            · rw [hES]
              simp
            · simp only [mapToBytes, hb, hmap]
            · rw [hL]
              simp only [List.foldl_cons]
          next x heq2 => simp at h
          next heq2 => simp at h
        next x heq => simp at h
        next heq => simp at h
    · rw [if_neg hn] at h
      simp at h

/-!
Claim-side definitions and the claim theorems.
-/

/-- Type token of an object variant. -/
def typeTokOf : Object → Bytes
  | .blob _ _ => blobTok
  | .tree _ _ => treeTok

/-- The stored length field of an object. -/
def lenOf : Object → Int
  | .blob len _ => len
  | .tree len _ => len

/-- Canonical body in the words of the spec: the raw content of a Blob, or
the concatenation of the entry encodings (each via `Entry::to_bytes`)
for a Tree. -/
def canonBodyR : Object → Res Bytes
  | .blob _ content => .ok content
  | .tree _ entries =>
    match mapToBytes entries with
    | .ok bs => .ok bs.flatten
    | .err x => .err x
    | .panic => .panic

/-- Domain condition for hashing: the `sha1` field of every entry decodes as
hex text (true of every object the program itself constructs). -/
def shaOk : Object → Bool
  | .blob _ _ => true
  | .tree _ entries => entries.all (fun e => e.toBytesOkB)

/-- SHA1 regression vector: the address of `Blob { 6, "hello\n" }` is the
well-known digest `ce013625030ba8dba906f756967f9e9ca394464a` of
`"blob 6\0hello\n"`, validating the digest embedding. -/
theorem get_sha1_hello_vector :
    Object.get_sha1 (.blob 6 [104, 101, 108, 108, 111, 10]) =
      .ok [99, 101, 48, 49, 51, 54, 50, 53, 48, 51, 48, 98, 97, 56, 100, 98,
           97, 57, 48, 54, 102, 55, 53, 54, 57, 54, 55, 102, 57, 101, 57, 99,
           97, 51, 57, 52, 52, 54, 52, 97] := by decide

/-- C4: for every Object (whose entry addresses are hex text, as holds for
every object the program builds), `get_sha1` returns exactly the
40-character lowercase-hex rendering of `SHA1("<type> <len>\0<body>")`,
where the body is the Blob content or the concatenation of the entry
encodings via `Entry::to_bytes`; it is a pure function, so equal objects
get equal addresses. -/
theorem get_sha1_canonical (o : Object) (h : shaOk o = true) :
    (∃ body, canonBodyR o = .ok body ∧
      o.get_sha1 = .ok (encode_hex (sha1digest
        (typeTokOf o ++ [32] ++ intAscii (lenOf o) ++ [0] ++ body)))) ∧
    (∀ s, o.get_sha1 = .ok s → s.length = 40 ∧ ∀ c ∈ s, isLowerHexChar c) ∧
    (∀ o2 : Object, o2 = o → o2.get_sha1 = o.get_sha1) := by
  refine ⟨?_, fun s hs => Object.get_sha1_hex_valid o s hs, fun o2 h2 => by rw [h2]⟩
  cases o with
  | blob len content => exact ⟨content, rfl, rfl⟩
  | tree len entries =>
    unfold shaOk at h
    obtain ⟨bs, hbs⟩ := mapToBytes_ok_of_all entries
      (by simpa [List.all_eq_true] using h)
    refine ⟨bs.flatten, ?_, ?_⟩
    · simp only [canonBodyR, hbs]
    · simp only [Object.get_sha1, hbs, typeTokOf, lenOf]
      congr 2
      simp [List.flatten, List.append_assoc]

/-- Witness for C4 at the Blob of the spec example `Blob { 6, "hello\n" }`. -/
theorem get_sha1_canonical_witness :
    shaOk (.blob 6 [104, 101, 108, 108, 111, 10]) = true ∧
    ((∃ body, canonBodyR (Object.blob 6 [104, 101, 108, 108, 111, 10]) = .ok body ∧
      (Object.blob 6 [104, 101, 108, 108, 111, 10]).get_sha1 =
        .ok (encode_hex (sha1digest
          (typeTokOf (.blob 6 [104, 101, 108, 108, 111, 10]) ++ [32] ++
            intAscii (lenOf (.blob 6 [104, 101, 108, 108, 111, 10])) ++ [0] ++ body)))) ∧
    (∀ s, (Object.blob 6 [104, 101, 108, 108, 111, 10]).get_sha1 = .ok s →
      s.length = 40 ∧ ∀ c ∈ s, isLowerHexChar c) ∧
    (∀ o2 : Object, o2 = .blob 6 [104, 101, 108, 108, 111, 10] →
      o2.get_sha1 = (Object.blob 6 [104, 101, 108, 108, 111, 10]).get_sha1)) :=
  ⟨by decide, get_sha1_canonical (.blob 6 [104, 101, 108, 108, 111, 10]) (by decide)⟩

theorem parseEntries_step (l : Bytes) (h : l ≠ []) :
    parseEntries l =
      (match Entry.new l with
      | (.ok e, rest) =>
        match parseEntries rest with
        | .ok es => .ok (e :: es)
        | .err x => .err x
        | .panic => .panic
      | (.err x, _) => .err x
      | (.panic, _) => .panic) := by
  obtain ⟨b, r, rfl⟩ := List.exists_cons_of_ne_nil h
  show parseEntriesAux (r.length + 1) (b :: r) = _
  simp only [parseEntriesAux]
  rcases he : Entry.new (b :: r) with ⟨res, rest⟩
  have hle : rest.length ≤ r.length := by
    have := Entry.new_rest_length (b :: r) (by simp)
    rw [he] at this
    simp at this
    omega
  rcases res with e | x | _ <;> dsimp only
  rw [parseEntriesAux_fuel rest r.length hle]

/-- Fixed 40-character hex address used by concrete examples: the hex
rendering of the bytes 0 to 19. -/
def cSha40 : Bytes := encode_hex (List.range 20)

/-- C9: for an Entry whose sha1 field is a 40-character hex string,
`to_bytes` produces exactly octal mode text, a space, the name, a NUL and
the 20 raw bytes obtained by hex-decoding the address: the encoding ends
in 20 binary bytes, never hex text. -/
theorem to_bytes_format (e : Entry) (h1 : e.sha1.length = 40)
    (h2 : ∀ c ∈ e.sha1, (hexDigVal c).isSome) :
    ∃ raw, decode_hex e.sha1 = .ok raw ∧ raw.length = 20 ∧
      e.to_bytes = .ok (octalAscii e.mode ++ [32] ++ e.name ++ [0] ++ raw) ∧
      ∃ pre, e.to_bytes = .ok (pre ++ raw) := by
  obtain ⟨raw, hr, hlen⟩ := decode_hex_ok e.sha1 (by rw [h1]) h2
  have h20 : raw.length = 20 := by rw [hlen, h1]
  refine ⟨raw, hr, h20, ?_, ?_⟩
  · unfold Entry.to_bytes
    rw [hr]
  · refine ⟨octalAscii e.mode ++ [32] ++ e.name ++ [0], ?_⟩
    unfold Entry.to_bytes
    rw [hr]

/-- Witness for C9 at a concrete entry carrying the 40-hex address
`cSha40`. -/
theorem to_bytes_format_witness :
    (Entry.sha1 ⟨16384, treeTok, [115, 117, 98], cSha40⟩).length = 40 ∧
    (∀ c ∈ Entry.sha1 ⟨16384, treeTok, [115, 117, 98], cSha40⟩, (hexDigVal c).isSome) ∧
    (∃ raw, decode_hex (Entry.sha1 ⟨16384, treeTok, [115, 117, 98], cSha40⟩) = .ok raw ∧
      raw.length = 20 ∧
      Entry.to_bytes ⟨16384, treeTok, [115, 117, 98], cSha40⟩ =
        .ok (octalAscii (Entry.mode ⟨16384, treeTok, [115, 117, 98], cSha40⟩) ++ [32] ++
          Entry.name ⟨16384, treeTok, [115, 117, 98], cSha40⟩ ++ [0] ++ raw) ∧
      ∃ pre, Entry.to_bytes ⟨16384, treeTok, [115, 117, 98], cSha40⟩ = .ok (pre ++ raw)) :=
  ⟨by decide, by decide,
   to_bytes_format ⟨16384, treeTok, [115, 117, 98], cSha40⟩ (by decide) (by decide)⟩

/-- C10: the tree-decoding loop terminates: on any nonempty remainder,
`Entry::new` strictly shrinks the iterator, so fuel equal to the input
length makes the fuel-indexed loop equal to `parseEntries`. -/
theorem tree_loop_terminates (bytes : Bytes) (h : bytes ≠ []) :
    (Entry.new bytes).2.length < bytes.length ∧
    ∀ fuel, bytes.length ≤ fuel → parseEntriesAux fuel bytes = parseEntries bytes :=
  ⟨Entry.new_rest_length bytes h, fun fuel hf => parseEntriesAux_fuel bytes fuel hf⟩

/-- Concrete tree-entry record bytes used by the C10 witness. -/
def c10bytes : Bytes := [49, 48, 48, 54, 52, 52, 32, 97, 0]

/-- Witness for C10 at the record `"100644 a\0"`. -/
theorem tree_loop_terminates_witness :
    c10bytes ≠ [] ∧ (Entry.new c10bytes).2.length < c10bytes.length ∧
    parseEntriesAux 9 c10bytes = parseEntries c10bytes :=
  ⟨by decide, (tree_loop_terminates c10bytes (by decide)).1,
   (tree_loop_terminates c10bytes (by decide)).2 9 (by decide)⟩

/-- C3 evidence: `Entry::to_bytes` renders mode 16384 as the octal text
`"40000"`, but `Entry::new` parses that text back with `parse::<u32>()`
(decimal), yielding mode 40000 rather than 0o40000 = 16384: the mode text
is decoded as decimal, and the encode/decode round trip changes the mode.
The hex conversion of the 20 raw address bytes is as claimed. -/
theorem entry_mode_decoded_decimal :
    Entry.to_bytes ⟨16384, treeTok, [115, 117, 98], cSha40⟩ =
      .ok ([52, 48, 48, 48, 48, 32, 115, 117, 98, 0] ++ List.range 20) ∧
    (Entry.new ([52, 48, 48, 48, 48, 32, 115, 117, 98, 0] ++ List.range 20)).1 =
      .ok ⟨40000, treeTok, [115, 117, 98], cSha40⟩ ∧
    (40000 : Nat) ≠ 16384 := by decide

/-- Concrete truncated tree plaintext: `"tree 12\0100644 a\0"` followed by
only three raw address bytes. -/
def c2input : Bytes :=
  [116, 114, 101, 101, 32, 49, 50, 0, 49, 48, 48, 54, 52, 52, 32, 97, 0, 1, 2, 3]

/-- C2 counterexample: on a truncated tree body (3 bytes where a 20-byte
Entry address is expected) decoding succeeds with a Tree whose entry
address is the 6-character string `"010203"`; it does not fail with
`CorruptFile` (spec: `CorruptObject`). -/
theorem truncated_tree_accepted :
    readObj c2input =
      .ok (.tree 12 [⟨100644, blobTok, [97], [48, 49, 48, 50, 48, 51]⟩]) ∧
    readObj c2input ≠ .err (.git .CorruptFile) := by decide

/-- C2 amended: whenever fewer than 20 bytes remain after the name NUL of
an Entry, `Entry::new` succeeds anyway, hex-encoding just the remaining bytes
into an address shorter than 40 characters, and the tree decode returns
that Tree rather than an error. -/
theorem truncated_tree_amended (lenText modeText name addr : Bytes)
    (len : Int) (mode : Nat)
    (h1 : parse_i32 lenText = some len) (h2 : validUtf8 lenText = true)
    (h3 : (0 : Nat) ∉ lenText)
    (h4 : parse_u32 modeText = some mode) (h5 : validUtf8 modeText = true)
    (h6 : (32 : Nat) ∉ modeText)
    (h7 : validUtf8 name = true) (h8 : (0 : Nat) ∉ name)
    (h9 : addr.length < 20) :
    readObj (treeTok ++ 32 :: (lenText ++ 0 :: (modeText ++ 32 :: (name ++ 0 :: addr)))) =
      .ok (.tree len [⟨mode, entryTypeOf mode, name, encode_hex addr⟩]) ∧
    (encode_hex addr).length < 40 := by
  constructor
  · unfold readObj
    rw [take_until_append 32 treeTok _ (by decide)]
    dsimp only
    rw [take_until_append 0 lenText _ h3]
    have hne : modeText ++ 32 :: (name ++ 0 :: addr) ≠ [] := by
      cases modeText <;> simp
    rw [parseEntries_step _ hne, Entry.new_spec modeText name addr mode h4 h5 h6 h7 h8]
    rw [List.take_of_length_le (Nat.le_of_lt h9), List.drop_eq_nil_of_le (Nat.le_of_lt h9)]
    simp [h2, h5, h1]
    rw [if_pos (show validUtf8 treeTok = true by decide)]
    rw [if_neg (show ¬ treeTok = blobTok by decide)]
    rfl
  · rw [encode_hex_length]
    omega

/-- Witness for the amended C2 at the concrete plaintext of `c2input`. -/
theorem truncated_tree_amended_witness :
    (parse_i32 [49, 50] = some 12 ∧ validUtf8 [49, 50] = true ∧ (0 : Nat) ∉ [49, 50] ∧
     parse_u32 [49, 48, 48, 54, 52, 52] = some 100644 ∧
     validUtf8 [49, 48, 48, 54, 52, 52] = true ∧ (32 : Nat) ∉ [49, 48, 48, 54, 52, 52] ∧
     validUtf8 [97] = true ∧ (0 : Nat) ∉ [97] ∧ ([1, 2, 3] : Bytes).length < 20) ∧
    (readObj (treeTok ++ 32 :: ([49, 50] ++ 0 :: ([49, 48, 48, 54, 52, 52] ++ 32 ::
        ([97] ++ 0 :: [1, 2, 3])))) =
      .ok (.tree 12 [⟨100644, entryTypeOf 100644, [97], encode_hex [1, 2, 3]⟩]) ∧
     (encode_hex [1, 2, 3]).length < 40) :=
  ⟨⟨by decide, by decide, by decide, by decide, by decide, by decide, by decide,
    by decide, by decide⟩,
   truncated_tree_amended [49, 50] [49, 48, 48, 54, 52, 52] [97] [1, 2, 3] 12 100644
     (by decide) (by decide) (by decide) (by decide) (by decide) (by decide)
     (by decide) (by decide) (by decide)⟩

/-- Concrete plaintext `"commit x\0"`: an unknown type token together with
a non-numeric length token. -/
def c5input : Bytes := [99, 111, 109, 109, 105, 116, 32, 120, 0]

/-- C5 counterexample: the plaintext `"commit x\0"` has type token
`commit`, yet decoding panics at the length `unwrap` before the type is
even examined, instead of failing with `CorruptFile` (spec:
`CorruptObject`). -/
theorem unknown_type_panics_on_bad_len :
    readObj c5input = .panic ∧ readObj c5input ≠ .err (.git .CorruptFile) := by decide

/-- C5 amended: when the length token parses as an `i32` (so the
`unwrap` does not panic first), any type token other than `blob` and
`tree` makes the decode fail with `CorruptFile` (spec: `CorruptObject`). -/
theorem unknown_type_rejected (typeTok lenText rest : Bytes) (len : Int)
    (h1 : (32 : Nat) ∉ typeTok) (h2 : validUtf8 typeTok = true)
    (h3 : (0 : Nat) ∉ lenText) (h4 : validUtf8 lenText = true)
    (h5 : parse_i32 lenText = some len)
    (h6 : typeTok ≠ blobTok) (h7 : typeTok ≠ treeTok) :
    readObj (typeTok ++ 32 :: (lenText ++ 0 :: rest)) = .err (.git .CorruptFile) := by
  unfold readObj
  rw [take_until_append 32 typeTok _ h1]
  dsimp only
  rw [take_until_append 0 lenText _ h3]
  simp [h2, h4, h5, h6, h7]

/-- Witness for the amended C5 at the plaintext `"commit 10\0abc"`. -/
theorem unknown_type_rejected_witness :
    ((32 : Nat) ∉ [99, 111, 109, 109, 105, 116] ∧
     validUtf8 [99, 111, 109, 109, 105, 116] = true ∧
     (0 : Nat) ∉ [49, 48] ∧ validUtf8 [49, 48] = true ∧
     parse_i32 [49, 48] = some 10 ∧
     ([99, 111, 109, 109, 105, 116] : Bytes) ≠ blobTok ∧
     ([99, 111, 109, 109, 105, 116] : Bytes) ≠ treeTok) ∧
    readObj ([99, 111, 109, 109, 105, 116] ++ 32 :: ([49, 48] ++ 0 :: [97, 98, 99])) =
      .err (.git .CorruptFile) :=
  ⟨⟨by decide, by decide, by decide, by decide, by decide, by decide, by decide⟩,
   unknown_type_rejected [99, 111, 109, 109, 105, 116] [49, 48] [97, 98, 99] 10
     (by decide) (by decide) (by decide) (by decide) (by decide) (by decide) (by decide)⟩

/-- Concrete plaintext `"blob x\0hi"`: well-formed delimiters but a length
token that is not valid integer text. -/
def c6input : Bytes := [98, 108, 111, 98, 32, 120, 0, 104, 105]

/-- C6 evidence: on a plaintext whose length token is not valid `i32`
text, the decode step of `read_from_sha1` panics at
`parse::<i32>().unwrap()` instead of returning a `CorruptFile` (spec:
`CorruptObject`) error value to the caller. -/
theorem invalid_length_token_panics : readObj c6input = .panic := by decide

/-- A loose-object store with no files (every lookup fails). -/
def emptyStore : Bytes → Bytes → Option Bytes := fun _ _ => none

/-- An inflater standing in for the zlib codec in concrete examples. -/
def idInflate : Bytes → Res Bytes := fun b => .ok b

/-- C7 counterexample: on the one-character address `"a"`,
`read_from_sha1` panics at the slice `&object_sha[..2]` instead of
returning an `InvalidAddress` error (no such error variant even exists in
`GitError`). -/
theorem short_address_panics :
    Object.read_from_sha1 emptyStore idInflate [97] = .panic := by decide

/-- C7 amended: `read_from_sha1` performs no address validation at all:
an address shorter than two bytes panics at the slicing step, and any
address that passes the slice check is used verbatim to form the object
path, a missing file surfacing as an I/O error, never as
`InvalidAddress`. -/
theorem read_from_sha1_no_validation :
    (∀ store inflate (sha : Bytes), sha.length < 2 →
      Object.read_from_sha1 store inflate sha = .panic) ∧
    (∀ store inflate (sha : Bytes), slice2ok sha = true →
      store (sha.take 2) (sha.drop 2) = none →
      Object.read_from_sha1 store inflate sha = .err .io) := by
  constructor
  · intro store inflate sha h
    have h2 : ¬ (2 ≤ sha.length) := by omega
    have hf : slice2ok sha = false := by
      simp [slice2ok, h2]
    unfold Object.read_from_sha1
    simp [hf]
  · intro store inflate sha h1 h2
    unfold Object.read_from_sha1
    rw [if_pos h1, h2]

/-- Witness for the amended C7: the short address `"a"` and a 40-hex
address missing from the store. -/
theorem read_from_sha1_no_validation_witness :
    (([97] : Bytes).length < 2 ∧
      Object.read_from_sha1 emptyStore idInflate [97] = .panic) ∧
    (slice2ok cSha40 = true ∧ emptyStore (cSha40.take 2) (cSha40.drop 2) = none ∧
      Object.read_from_sha1 emptyStore idInflate cSha40 = .err .io) :=
  ⟨⟨by decide, read_from_sha1_no_validation.1 emptyStore idInflate [97] (by decide)⟩,
   ⟨by decide, by decide,
    read_from_sha1_no_validation.2 emptyStore idInflate cSha40 (by decide) (by decide)⟩⟩

theorem slice2ok_hexdigest (m : Bytes) :
    slice2ok (encode_hex (sha1digest m)) = true := by
  have hlen : (encode_hex (sha1digest m)).length = 40 := by
    rw [encode_hex_length, sha1digest_length]
  have h2 : 2 < (encode_hex (sha1digest m)).length := by omega
  have hmem : isLowerHexChar ((encode_hex (sha1digest m)).getD 2 0) := by
    apply encode_hex_mem
    rw [List.getD_eq_getElem _ _ h2]
    exact List.getElem_mem h2
  have hc := isContByte_of_lower_hex hmem
  rw [List.getD_eq_getElem _ _ h2] at hc
  simp [slice2ok, hlen, hc]

/-- C1 evidence: `write_to_database` succeeds only for the Blob variant.
For every Tree it reaches `todo!()` and panics (so a directory snapshot
cannot be persisted); for every Blob it writes the compressed canonical
plaintext `"blob <len>\0<content>"` under the two address-derived path
segments `sha1[..2]` and `sha1[2..]`. -/
theorem write_to_database_outcome :
    (∀ deflate (len : Int) (entries : List Entry),
      Object.write_to_database deflate (.tree len entries) = .panic) ∧
    (∀ deflate (len : Int) (content : Bytes),
      Object.write_to_database deflate (.blob len content) =
        .ok ((encode_hex (sha1digest (blobTok ++ [32] ++ intAscii len ++ [0] ++ content))).take 2,
             (encode_hex (sha1digest (blobTok ++ [32] ++ intAscii len ++ [0] ++ content))).drop 2,
             deflate (blobTok ++ [32] ++ intAscii len ++ [0] ++ content))) := by
  constructor
  · intro deflate len entries
    unfold Object.write_to_database
    rcases hm : mapToBytes entries with bs | x | _
    · simp only [Object.get_sha1, hm]
      rw [if_pos (slice2ok_hexdigest _)]
    · exact absurd hm (mapToBytes_ne_err entries x)
    · simp only [Object.get_sha1, hm]
  · intro deflate len content
    unfold Object.write_to_database
    simp only [Object.get_sha1]
    rw [if_pos (slice2ok_hexdigest _)]

/-- Concrete plaintext `"blob 999\0hi"`: the declared length 999 does not
match the 2-byte body. -/
def c8input : Bytes := [98, 108, 111, 98, 32, 57, 57, 57, 0, 104, 105]

/-- C8 counterexample: `read_from_sha1` copies the header length field
without validating it, so decoding `"blob 999\0hi"` yields a Blob whose
`len` field 999 differs from the byte length 2 of its content. -/
theorem decoded_len_not_validated :
    readObj c8input = .ok (.blob 999 [104, 105]) ∧
    (999 : Int) ≠ ((([104, 105] : Bytes).length : Nat) : Int) := by decide

/-- C8 amended: the length invariant does hold for the two filesystem
constructors (as long as the sizes fit in `i32`): `from_path` stores the
content byte length, and `read_from_dir` stores the byte length of the
concatenation of the entry encodings; `read_from_sha1` is the exception
witnessed above. -/
theorem len_invariant_constructors :
    (∀ node (len : Int) (content : Bytes),
      Object.from_path node = .ok (.blob len content) →
      content.length < 2 ^ 31 → len = (content.length : Int)) ∧
    (∀ node (len : Int) (entries : List Entry),
      Object.read_from_dir node = .ok (.tree len entries) →
      ∃ bs, mapToBytes entries = .ok bs ∧
        (bs.flatten.length < 2 ^ 31 → len = (bs.flatten.length : Int))) := by
  constructor
  · intro node len content h hlt
    rcases node with c | d
    · simp only [Object.from_path] at h
      split at h
      · injection h with h'
        injection h' with hl hc
        subst hc
        rw [← hl, i32cast_small hlt]
      · simp at h
    · simp only [Object.from_path] at h
      simp at h
  · intro node len entries h
    rcases node with c | d
    · rw [read_from_dir_file_eq] at h
      simp at h
    · rw [read_from_dir_dir_eq] at h
      split at h
      next len0 es0 heq =>
        injection h with h'
        injection h' with hl he
        rw [← hl, ← he]
        obtain ⟨es2, bs, hES, hmap, hL⟩ := dirLoop_ok d 0 [] len0 es0 heq
        rw [List.nil_append] at hES
        subst hES
        refine ⟨bs, hmap, ?_⟩
        intro hsmall
        rw [hL, foldl_i32add bs 0 (by unfold wrap32; decide), zero_add,
          ← List.length_flatten]
        exact wrap32_eq_self (by omega) (by exact_mod_cast hsmall)
      next x heq => simp at h
      next heq => simp at h

/-- The 40-hex address of `Blob { 2, "hi" }`
(`32f95c0d1244a78b2be1bab8de17906fabb2c4a8`). -/
def cShaHi : Bytes :=
  [51, 50, 102, 57, 53, 99, 48, 100, 49, 50, 52, 52, 97, 55, 56, 98, 50, 98,
   101, 49, 98, 97, 98, 56, 100, 101, 49, 55, 57, 48, 54, 102, 97, 98, 98, 50,
   99, 52, 97, 56]

/-- A one-file directory: the regular file `"a"` (mode `0o100644`) with
content `"hi"`. -/
def cFs : FsNode := .dir (.cons [97] 33188 (.file [104, 105]) .nil)

/-- The entry `read_from_dir` builds for the file `"a"` of `cFs`. -/
def cEntryHi : Entry := ⟨33188, blobTok, [97], cShaHi⟩

/-- Witness for the amended C8: both conjuncts applied to the concrete
filesystem `cFs` and its single file. -/
theorem len_invariant_constructors_witness :
    (Object.from_path (.file [104, 105]) = .ok (.blob 2 [104, 105]) ∧
     ([104, 105] : Bytes).length < 2 ^ 31 ∧
     (2 : Int) = ((([104, 105] : Bytes).length : Nat) : Int)) ∧
    (Object.read_from_dir cFs = .ok (.tree 29 [cEntryHi]) ∧
     ∃ bs, mapToBytes [cEntryHi] = .ok bs ∧
       (bs.flatten.length < 2 ^ 31 → (29 : Int) = (bs.flatten.length : Int))) :=
  ⟨⟨by decide, by decide,
    len_invariant_constructors.1 (.file [104, 105]) 2 [104, 105] (by decide) (by decide)⟩,
   ⟨by decide,
    len_invariant_constructors.2 cFs 29 [cEntryHi] (by decide)⟩⟩
